import Mathlib

/-!
Shallow embedding of the key–value engine module (`src/storage/engine/mod.rs`)
of the tikv repository, together with proofs of the specification's claims
about it.

Keys and values are opaque byte sequences; bytes are modelled as `Nat`
(the source compares them as unsigned bytes, which coincides with `Nat`
order on values below 256, and all order facts proved here hold for all
naturals).

The concrete backends (`memory.rs`, `rocksdb.rs`) are referenced by the
module but their sources are not part of the repository snapshot; the memory
backend (`BTreeEngine`) is therefore modelled from the specification, §4.2:
an ordered map from byte sequences to byte sequences, sorted
lexicographically, with `Put` inserting or replacing, `Delete` removing if
present and otherwise silently ignored, `seek` the least-key-≥ primitive,
and no user-visible failures.
-/

namespace TikvEngine

/-- A byte string: keys and values of the engine. -/
abbrev Bytes := List Nat

/-- Lexicographic strict order on byte strings over unsigned byte values:
a shorter string precedes every proper extension of it. -/
def lexLt : Bytes → Bytes → Bool
  | [], [] => false
  | [], _ :: _ => true
  | _ :: _, [] => false
  | a :: as, b :: bs =>
    if a < b then true
    else if b < a then false
    else lexLt as bs

/-- The `Modify` enum of `mod.rs`: a single modification, either
`Delete(key)` or `Put((key, value))`. -/
inductive Modify where
  | Delete (key : Bytes)
  | Put (key : Bytes) (value : Bytes)
deriving DecidableEq, Repr

/-- A boxed `error::Error` trait object: a description string, a display
string, and an optional causal predecessor forming a chain. -/
inductive BoxedError where
  | mk (descr : String) (displayStr : String) (below : Option BoxedError)

/-- `description()` of a boxed error. -/
def BoxedError.description : BoxedError → String
  | .mk d _ _ => d

/-- `Display::fmt` output of a boxed error. -/
def BoxedError.displayOut : BoxedError → String
  | .mk _ s _ => s

/-- `cause()` of a boxed error: its causal predecessor, if any. -/
def BoxedError.cause : BoxedError → Option BoxedError
  | .mk _ _ c => c

/-- Length of the cause chain hanging below a boxed error. -/
def BoxedError.depth : BoxedError → Nat
  | .mk _ _ none => 0
  | .mk _ _ (some e) => e.depth + 1

/-- The `Error` enum of `mod.rs`: a single variant `Other` wrapping a boxed
`error::Error + Send + Sync`. -/
inductive EngineError where
  | Other (e : BoxedError)

/-- `impl error::Error for Error`, `description`: delegates to the wrapped
error's description. -/
def EngineError.description : EngineError → String
  | .Other e => e.description

/-- `impl Display for Error`, `fmt`: delegates to the wrapped error's
`Display`. -/
def EngineError.displayOut : EngineError → String
  | .Other e => e.displayOut

/-- `impl error::Error for Error`, `cause`: delegates to the wrapped
error's own `cause()` (it does not return the wrapped error itself). -/
def EngineError.cause : EngineError → Option BoxedError
  | .Other e => e.cause

/-- The `Result<T>` alias of `mod.rs`. -/
abbrev EResult (α : Type) := Except EngineError α

/-- Association-list lookup of a key in the tree, the observable content of
the ordered map. -/
def getKV : List (Bytes × Bytes) → Bytes → Option Bytes
  | [], _ => none
  | (k1, v1) :: rest, k => if k = k1 then some v1 else getKV rest k

/-- Modelled from the spec: §4.2, `Put` on the ordered map "inserts or
replaces", keeping the map sorted lexicographically by key. -/
def insertKV : List (Bytes × Bytes) → Bytes → Bytes → List (Bytes × Bytes)
  | [], k, v => [(k, v)]
  | (k1, v1) :: rest, k, v =>
    if lexLt k k1 then (k, v) :: (k1, v1) :: rest
    else if k = k1 then (k, v) :: rest
    else (k1, v1) :: insertKV rest k v

/-- Modelled from the spec: §4.2, `Delete` on the ordered map "removes if
present, otherwise is silently ignored". -/
def removeKV : List (Bytes × Bytes) → Bytes → List (Bytes × Bytes)
  | [], _ => []
  | (k1, v1) :: rest, k =>
    if k = k1 then rest else (k1, v1) :: removeKV rest k

/-- Modelled from the spec: §4.2, `seek(q)` "maps to the map's least key ≥ q
primitive; if unavailable natively, it is implemented as a scan from the
lower bound" — on the sorted list, the first entry whose key is not < q. -/
def seekKV : List (Bytes × Bytes) → Bytes → Option (Bytes × Bytes)
  | [], _ => none
  | (k1, v1) :: rest, q =>
    if lexLt k1 q then seekKV rest q else some (k1, v1)

/-- Application of one `Modify` to the tree, per §4.2. -/
def applyModify (t : List (Bytes × Bytes)) : Modify → List (Bytes × Bytes)
  | .Put k v => insertKV t k v
  | .Delete k => removeKV t k

/-- Application of a whole batch, in the caller-supplied order. -/
def applyBatch (t : List (Bytes × Bytes)) (batch : List Modify) : List (Bytes × Bytes) :=
  batch.foldl applyModify t

/-- Modelled from the spec: the memory backend `BTreeEngine` of
`memory.rs` (not in the snapshot), §4.2: "an ordered map from byte
sequences to byte sequences, sorted lexicographically". -/
structure BTreeEngine where
  tree : List (Bytes × Bytes)
deriving DecidableEq, Repr

/-- Modelled from the spec: a fresh engine holds no entries
(§8, absent-by-default). -/
def BTreeEngine.new : BTreeEngine := ⟨[]⟩

/-- Modelled from the spec: §4.2 — the memory backend's `get`; "no
user-visible failures", so it always returns `Ok`. -/
def BTreeEngine.get (e : BTreeEngine) (key : Bytes) : EResult (Option Bytes) :=
  .ok (getKV e.tree key)

/-- Modelled from the spec: §4.2 — the memory backend's `seek`. -/
def BTreeEngine.seek (e : BTreeEngine) (key : Bytes) : EResult (Option (Bytes × Bytes)) :=
  .ok (seekKV e.tree key)

/-- Modelled from the spec: §4.2 — the memory backend's `write`: "each
modification is applied in sequence"; the call takes `&mut self`, so it is
embedded as returning the result together with the updated engine. -/
def BTreeEngine.write (e : BTreeEngine) (batch : List Modify) :
    EResult Unit × BTreeEngine :=
  (.ok (), ⟨applyBatch e.tree batch⟩)

/-- The trait's provided method `put` from `mod.rs`:
`self.write(vec![Modify::Put((key, value))])`. -/
def BTreeEngine.put (e : BTreeEngine) (key value : Bytes) : EResult Unit × BTreeEngine :=
  e.write [Modify.Put key value]

/-- The trait's provided method `delete` from `mod.rs`:
`self.write(vec![Modify::Delete(key)])`. -/
def BTreeEngine.delete (e : BTreeEngine) (key : Bytes) : EResult Unit × BTreeEngine :=
  e.write [Modify.Delete key]

/-- The `Descriptor` enum of `mod.rs`. -/
inductive Descriptor where
  | Memory
  | RocksDBPath (path : String)

/-- A boxed engine as returned by the factory: either the memory backend or
an opaque handle to the RocksDB backend (whose source is not in the
snapshot; it is irrelevant to the factory's `Memory` arm). -/
inductive EngineBox where
  | mem (e : BTreeEngine)
  | rocks (handle : Nat)

/-- The factory `new_engine` of `mod.rs`: the `Memory` arm is
`Ok(Box::new(BTreeEngine::new()))`; the `RocksDBPath` arm defers to
`RocksEngine::new(path)`, abstracted here as a parameter since `rocksdb.rs`
is not in the snapshot. -/
def new_engine (rocksNew : String → EResult Nat) : Descriptor → EResult EngineBox
  | .Memory => .ok (.mem BTreeEngine.new)
  | .RocksDBPath path => (rocksNew path).map .rocks

/-- An operation invoked on an engine handle: the five methods of the
`Engine` trait. -/
inductive Op where
  | opGet (key : Bytes)
  | opSeek (key : Bytes)
  | opWrite (batch : List Modify)
  | opPut (key value : Bytes)
  | opDelete (key : Bytes)

/-- The value an operation returns. -/
inductive Out where
  | val (o : Option Bytes)
  | entry (o : Option (Bytes × Bytes))
  | unitOut

/-- One step of the engine: each trait method applied to the current
handle. `get` and `seek` take `&self` in the source and leave the handle
unchanged; the mutating methods thread the updated handle. -/
def step (e : BTreeEngine) : Op → EResult Out × BTreeEngine
  | .opGet k => ((e.get k).map .val, e)
  | .opSeek k => ((e.seek k).map .entry, e)
  | .opWrite b => ((e.write b).1.map fun _ => .unitOut, (e.write b).2)
  | .opPut k v => ((e.put k v).1.map fun _ => .unitOut, (e.put k v).2)
  | .opDelete k => ((e.delete k).1.map fun _ => .unitOut, (e.delete k).2)

/-- The engine state after a sequence of operations. -/
def runOps (e : BTreeEngine) (ops : List Op) : BTreeEngine :=
  ops.foldl (fun e op => (step e op).2) e

/-- Whether one modification touches the given key. -/
def touchesKey (k : Bytes) : Modify → Bool
  | .Put k1 _ => k = k1
  | .Delete k1 => k = k1

/-- Whether an operation modifies the given key: a `write` whose batch
touches it, or a `put`/`delete` of it. Reads never modify. -/
def modifiesKey (k : Bytes) : Op → Bool
  | .opGet _ => false
  | .opSeek _ => false
  | .opWrite b => b.any (touchesKey k)
  | .opPut k1 _ => k = k1
  | .opDelete k1 => k = k1

/-- All keys in the tree are strictly greater than `x`. -/
def allKeysGt (x : Bytes) : List (Bytes × Bytes) → Bool
  | [] => true
  | (k, _) :: rest => lexLt x k && allKeysGt x rest

/-- The tree is strictly sorted by key in lexicographic order: every key is
below all keys after it. This is the representation invariant of the
ordered map. -/
def sortedTree : List (Bytes × Bytes) → Bool
  | [] => true
  | (k, _) :: rest => allKeysGt k rest && sortedTree rest

/-- Follows the spec's words (I5): the final observable value for key `k`
after a batch is the effect of `k`'s last modification in the batch —
scanning the batch in order, a `Put` of `k` sets the pending value, a
`Delete` of `k` clears it, and modifications of other keys leave it
alone. -/
def specLastEffect : List Modify → Bytes → Option Bytes → Option Bytes
  | [], _, cur => cur
  | .Put k1 v :: rest, k, cur =>
      specLastEffect rest k (if k = k1 then some v else cur)
  | .Delete k1 :: rest, k, cur =>
      specLastEffect rest k (if k = k1 then none else cur)

/-! ### Order lemmas for the lexicographic comparison -/

theorem lexLt_nil_right (a : Bytes) : lexLt a [] = false := by
  cases a <;> rfl

theorem lexLt_cons_iff (x y : Nat) (xs ys : Bytes) :
    lexLt (x :: xs) (y :: ys) = true ↔ (x < y ∨ (x = y ∧ lexLt xs ys = true)) := by
  simp only [lexLt]
  split_ifs with h1 h2
  · simp [h1]
  · constructor
    · intro h; exact absurd h (by simp)
    · rintro (h | ⟨h, _⟩) <;> omega
  · have hxy : x = y := by omega
    simp [hxy]

theorem lexLt_irrefl (a : Bytes) : lexLt a a = false := by
  induction a with
  | nil => rfl
  | cons x xs ih =>
    rw [Bool.eq_false_iff]
    intro h
    rw [lexLt_cons_iff] at h
    rcases h with h | ⟨_, h⟩
    · omega
    · rw [ih] at h; exact absurd h (by simp)

theorem lexLt_trans (a : Bytes) :
    ∀ b c : Bytes, lexLt a b = true → lexLt b c = true → lexLt a c = true := by
  induction a with
  | nil =>
    intro b c hab hbc
    cases b with
    | nil => exact absurd hab (by simp [lexLt])
    | cons y ys =>
      cases c with
      | nil => exact absurd hbc (by simp [lexLt_nil_right])
      | cons z zs => simp [lexLt]
  | cons x xs ih =>
    intro b c hab hbc
    cases b with
    | nil => exact absurd hab (by simp [lexLt_nil_right])
    | cons y ys =>
      cases c with
      | nil => exact absurd hbc (by simp [lexLt_nil_right])
      | cons z zs =>
        rw [lexLt_cons_iff] at hab hbc ⊢
        rcases hab with h1 | ⟨h1, h1l⟩ <;> rcases hbc with h2 | ⟨h2, h2l⟩
        · left; omega
        · left; omega
        · left; omega
        · right; exact ⟨by omega, ih ys zs h1l h2l⟩

theorem lexLt_asymm (a b : Bytes) (h : lexLt a b = true) : lexLt b a = false := by
  rw [Bool.eq_false_iff]
  intro h2
  have h3 := lexLt_trans a b a h h2
  rw [lexLt_irrefl] at h3
  exact absurd h3 (by simp)

theorem lexLt_connex (a : Bytes) :
    ∀ b : Bytes, lexLt a b = false → lexLt b a = false → a = b := by
  induction a with
  | nil =>
    intro b hab hba
    cases b with
    | nil => rfl
    | cons y ys => exact absurd hab (by simp [lexLt])
  | cons x xs ih =>
    intro b hab hba
    cases b with
    | nil => exact absurd hba (by simp [lexLt])
    | cons y ys =>
      have hab2 : ¬(x < y ∨ (x = y ∧ lexLt xs ys = true)) := by
        rw [← lexLt_cons_iff x y xs ys]; simp [hab]
      have hba2 : ¬(y < x ∨ (y = x ∧ lexLt ys xs = true)) := by
        rw [← lexLt_cons_iff y x ys xs]; simp [hba]
      push_neg at hab2 hba2
      have hxy : x = y := by omega
      subst hxy
      have hl : lexLt xs ys = false := by
        rw [Bool.eq_false_iff]; exact hab2.2 rfl
      have hl2 : lexLt ys xs = false := by
        rw [Bool.eq_false_iff]; exact hba2.2 rfl
      rw [ih ys hl hl2]

/-! ### Lookup lemmas for insertion and removal -/

theorem getKV_insert_self (t : List (Bytes × Bytes)) (k v : Bytes) :
    getKV (insertKV t k v) k = some v := by
  induction t with
  | nil => simp [insertKV, getKV]
  | cons p rest ih =>
    obtain ⟨k1, v1⟩ := p
    simp only [insertKV]
    split_ifs with h1 h2
    · simp [getKV]
    · simp [getKV]
    · simp only [getKV, if_neg h2]
      exact ih

theorem getKV_insert_other (t : List (Bytes × Bytes)) (k v k2 : Bytes) (h : k2 ≠ k) :
    getKV (insertKV t k v) k2 = getKV t k2 := by
  induction t with
  | nil => simp [insertKV, getKV, h]
  | cons p rest ih =>
    obtain ⟨k1, v1⟩ := p
    simp only [insertKV]
    split_ifs with h1 h2
    · simp [getKV, h]
    · subst h2
      simp [getKV, h]
    · by_cases hk : k2 = k1 <;> simp [getKV, hk, ih]

theorem getKV_remove_other (t : List (Bytes × Bytes)) (k k2 : Bytes) (h : k2 ≠ k) :
    getKV (removeKV t k) k2 = getKV t k2 := by
  induction t with
  | nil => simp [removeKV]
  | cons p rest ih =>
    obtain ⟨k1, v1⟩ := p
    simp only [removeKV]
    split_ifs with h1
    · subst h1
      simp [getKV, h]
    · by_cases hk : k2 = k1 <;> simp [getKV, hk, ih]

theorem getKV_eq_none_of_allKeysGt (t : List (Bytes × Bytes)) (x : Bytes)
    (h : allKeysGt x t = true) : getKV t x = none := by
  induction t with
  | nil => rfl
  | cons p rest ih =>
    obtain ⟨k1, v1⟩ := p
    simp only [allKeysGt, Bool.and_eq_true] at h
    have hne : x ≠ k1 := by
      intro he
      rw [he, lexLt_irrefl] at h
      exact absurd h.1 (by simp)
    simp [getKV, hne, ih h.2]

theorem getKV_remove_self (t : List (Bytes × Bytes)) (k : Bytes)
    (hs : sortedTree t = true) : getKV (removeKV t k) k = none := by
  induction t with
  | nil => rfl
  | cons p rest ih =>
    obtain ⟨k1, v1⟩ := p
    simp only [sortedTree, Bool.and_eq_true] at hs
    simp only [removeKV]
    split_ifs with h1
    · subst h1
      exact getKV_eq_none_of_allKeysGt rest k hs.1
    · simp only [getKV, if_neg h1]
      exact ih hs.2

theorem removeKV_absent (t : List (Bytes × Bytes)) (k : Bytes)
    (h : getKV t k = none) : removeKV t k = t := by
  induction t with
  | nil => rfl
  | cons p rest ih =>
    obtain ⟨k1, v1⟩ := p
    simp only [getKV] at h
    by_cases hk : k = k1
    · simp [hk] at h
    · simp only [if_neg hk] at h
      simp [removeKV, hk, ih h]

/-! ### Preservation of the sortedness invariant -/

theorem allKeysGt_of_lt (x y : Bytes) (t : List (Bytes × Bytes))
    (hxy : lexLt x y = true) (h : allKeysGt y t = true) : allKeysGt x t = true := by
  induction t with
  | nil => rfl
  | cons p rest ih =>
    obtain ⟨k1, v1⟩ := p
    simp only [allKeysGt, Bool.and_eq_true] at h ⊢
    exact ⟨lexLt_trans x y k1 hxy h.1, ih h.2⟩

theorem allKeysGt_insert (x k v : Bytes) (t : List (Bytes × Bytes))
    (h : allKeysGt x t = true) (hk : lexLt x k = true) :
    allKeysGt x (insertKV t k v) = true := by
  induction t with
  | nil => simp [insertKV, allKeysGt, hk]
  | cons p rest ih =>
    obtain ⟨k1, v1⟩ := p
    simp only [allKeysGt, Bool.and_eq_true] at h
    simp only [insertKV]
    split_ifs with h1 h2
    · simp only [allKeysGt, Bool.and_eq_true]
      exact ⟨hk, h.1, h.2⟩
    · simp only [allKeysGt, Bool.and_eq_true]
      exact ⟨hk, h.2⟩
    · simp only [allKeysGt, Bool.and_eq_true]
      exact ⟨h.1, ih h.2⟩

theorem allKeysGt_remove (x k : Bytes) (t : List (Bytes × Bytes))
    (h : allKeysGt x t = true) : allKeysGt x (removeKV t k) = true := by
  induction t with
  | nil => rfl
  | cons p rest ih =>
    obtain ⟨k1, v1⟩ := p
    simp only [allKeysGt, Bool.and_eq_true] at h
    simp only [removeKV]
    split_ifs with h1
    · exact h.2
    · simp only [allKeysGt, Bool.and_eq_true]
      exact ⟨h.1, ih h.2⟩

theorem sorted_insertKV (t : List (Bytes × Bytes)) (k v : Bytes)
    (hs : sortedTree t = true) : sortedTree (insertKV t k v) = true := by
  induction t with
  | nil => simp [insertKV, sortedTree, allKeysGt]
  | cons p rest ih =>
    obtain ⟨k1, v1⟩ := p
    simp only [sortedTree, Bool.and_eq_true] at hs
    simp only [insertKV]
    split_ifs with h1 h2
    · simp only [sortedTree, allKeysGt, Bool.and_eq_true]
      exact ⟨⟨h1, allKeysGt_of_lt k k1 rest h1 hs.1⟩, hs.1, hs.2⟩
    · subst h2
      simp only [sortedTree, Bool.and_eq_true]
      exact hs
    · have hkk1 : lexLt k k1 = false := by
        rw [Bool.eq_false_iff]; exact h1
      have hlt : lexLt k1 k = true := by
        rcases Bool.eq_false_or_eq_true (lexLt k1 k) with hc | hc
        · exact hc
        · exact absurd (lexLt_connex k k1 hkk1 hc) h2
      simp only [sortedTree, Bool.and_eq_true]
      exact ⟨allKeysGt_insert k1 k v rest hs.1 hlt, ih hs.2⟩

theorem sorted_removeKV (t : List (Bytes × Bytes)) (k : Bytes)
    (hs : sortedTree t = true) : sortedTree (removeKV t k) = true := by
  induction t with
  | nil => rfl
  | cons p rest ih =>
    obtain ⟨k1, v1⟩ := p
    simp only [sortedTree, Bool.and_eq_true] at hs
    simp only [removeKV]
    split_ifs with h1
    · exact hs.2
    · simp only [sortedTree, Bool.and_eq_true]
      exact ⟨allKeysGt_remove k1 k rest hs.1, ih hs.2⟩

theorem sorted_applyModify (t : List (Bytes × Bytes)) (m : Modify)
    (hs : sortedTree t = true) : sortedTree (applyModify t m) = true := by
  cases m with
  | Put k v => exact sorted_insertKV t k v hs
  | Delete k => exact sorted_removeKV t k hs

theorem sorted_applyBatch (b : List Modify) :
    ∀ t : List (Bytes × Bytes), sortedTree t = true →
      sortedTree (applyBatch t b) = true := by
  induction b with
  | nil => intro t hs; exact hs
  | cons m rest ih =>
    intro t hs
    exact ih (applyModify t m) (sorted_applyModify t m hs)

/-! ### Per-key effect of one modification and of a whole batch -/

theorem getKV_applyModify (t : List (Bytes × Bytes)) (m : Modify) (k : Bytes)
    (hs : sortedTree t = true) :
    getKV (applyModify t m) k =
      (match m with
       | .Put k1 v => if k = k1 then some v else getKV t k
       | .Delete k1 => if k = k1 then none else getKV t k) := by
  cases m with
  | Put k1 v =>
    by_cases hk : k = k1
    · subst hk
      simp [applyModify, getKV_insert_self]
    · simp [applyModify, hk, getKV_insert_other t k1 v k hk]
  | Delete k1 =>
    by_cases hk : k = k1
    · subst hk
      simp [applyModify, getKV_remove_self t k hs]
    · simp [applyModify, hk, getKV_remove_other t k1 k hk]

theorem getKV_applyBatch (b : List Modify) :
    ∀ (t : List (Bytes × Bytes)) (k : Bytes), sortedTree t = true →
      getKV (applyBatch t b) k = specLastEffect b k (getKV t k) := by
  induction b with
  | nil => intro t k _; rfl
  | cons m rest ih =>
    intro t k hs
    have hstep := getKV_applyModify t m k hs
    have hsort := sorted_applyModify t m hs
    cases m with
    | Put k1 v =>
      simp only [applyBatch, List.foldl_cons, specLastEffect]
      rw [show List.foldl applyModify (applyModify t (Modify.Put k1 v)) rest =
            applyBatch (applyModify t (Modify.Put k1 v)) rest from rfl,
          ih (applyModify t (Modify.Put k1 v)) k hsort, hstep]
    | Delete k1 =>
      simp only [applyBatch, List.foldl_cons, specLastEffect]
      rw [show List.foldl applyModify (applyModify t (Modify.Delete k1)) rest =
            applyBatch (applyModify t (Modify.Delete k1)) rest from rfl,
          ih (applyModify t (Modify.Delete k1)) k hsort, hstep]

/-! ### Keys untouched by a batch or by a trace of operations -/

theorem getKV_applyModify_untouched (t : List (Bytes × Bytes)) (m : Modify) (k : Bytes)
    (h : touchesKey k m = false) : getKV (applyModify t m) k = getKV t k := by
  cases m with
  | Put k1 v =>
    simp only [touchesKey, decide_eq_false_iff_not] at h
    exact getKV_insert_other t k1 v k h
  | Delete k1 =>
    simp only [touchesKey, decide_eq_false_iff_not] at h
    exact getKV_remove_other t k1 k h

theorem getKV_applyBatch_untouched (b : List Modify) :
    ∀ (t : List (Bytes × Bytes)) (k : Bytes),
      (∀ m ∈ b, touchesKey k m = false) →
      getKV (applyBatch t b) k = getKV t k := by
  induction b with
  | nil => intro t k _; rfl
  | cons m rest ih =>
    intro t k h
    have hm : touchesKey k m = false := h m (List.mem_cons_self m rest)
    have hrest : ∀ m2 ∈ rest, touchesKey k m2 = false :=
      fun m2 hmem => h m2 (List.mem_cons_of_mem m hmem)
    calc getKV (applyBatch t (m :: rest)) k
        = getKV (applyBatch (applyModify t m) rest) k := rfl
      _ = getKV (applyModify t m) k := ih (applyModify t m) k hrest
      _ = getKV t k := getKV_applyModify_untouched t m k hm

theorem step_preserves_getKV (e : BTreeEngine) (op : Op) (k : Bytes)
    (h : modifiesKey k op = false) :
    getKV ((step e op).2).tree k = getKV e.tree k := by
  cases op with
  | opGet k1 => rfl
  | opSeek k1 => rfl
  | opWrite b =>
    simp only [modifiesKey, List.any_eq_false] at h
    exact getKV_applyBatch_untouched b e.tree k
      fun m hm => Bool.eq_false_iff.mpr (h m hm)
  | opPut k1 v =>
    simp only [modifiesKey, decide_eq_false_iff_not] at h
    exact getKV_insert_other e.tree k1 v k h
  | opDelete k1 =>
    simp only [modifiesKey, decide_eq_false_iff_not] at h
    exact getKV_remove_other e.tree k1 k h

theorem runOps_preserves_getKV (ops : List Op) :
    ∀ (e : BTreeEngine) (k : Bytes),
      (∀ op ∈ ops, modifiesKey k op = false) →
      getKV (runOps e ops).tree k = getKV e.tree k := by
  induction ops with
  | nil => intro e k _; rfl
  | cons op rest ih =>
    intro e k h
    have hop : modifiesKey k op = false := h op (List.mem_cons_self op rest)
    have hrest : ∀ op2 ∈ rest, modifiesKey k op2 = false :=
      fun op2 hmem => h op2 (List.mem_cons_of_mem op hmem)
    calc getKV (runOps e (op :: rest)).tree k
        = getKV (runOps (step e op).2 rest).tree k := rfl
      _ = getKV ((step e op).2).tree k := ih (step e op).2 k hrest
      _ = getKV e.tree k := step_preserves_getKV e op k hop

/-! ### Correctness of seek on sorted trees -/

theorem lexLt_of_getKV_allKeysGt (t : List (Bytes × Bytes)) (x k2 v2 : Bytes)
    (hgt : allKeysGt x t = true) (hget : getKV t k2 = some v2) :
    lexLt x k2 = true := by
  induction t with
  | nil => exact absurd hget (by simp [getKV])
  | cons p rest ih =>
    obtain ⟨k1, v1⟩ := p
    simp only [allKeysGt, Bool.and_eq_true] at hgt
    simp only [getKV] at hget
    by_cases hk : k2 = k1
    · subst hk; exact hgt.1
    · simp only [if_neg hk] at hget
      exact ih hgt.2 hget

theorem seekKV_some_spec (t : List (Bytes × Bytes)) :
    ∀ (q k v : Bytes), sortedTree t = true → seekKV t q = some (k, v) →
      getKV t k = some v ∧ lexLt k q = false ∧
      (∀ k2 v2, getKV t k2 = some v2 → lexLt k2 q = false → lexLt k2 k = false) := by
  induction t with
  | nil => intro q k v _ h; exact absurd h (by simp [seekKV])
  | cons p rest ih =>
    intro q k v hs h
    obtain ⟨k1, v1⟩ := p
    simp only [sortedTree, Bool.and_eq_true] at hs
    simp only [seekKV] at h
    split_ifs at h with h1
    · obtain ⟨hget, hgeq, hmin⟩ := ih q k v hs.2 h
      have hne : k ≠ k1 := by
        intro he; rw [he, h1] at hgeq; exact absurd hgeq (by simp)
      refine ⟨by simp [getKV, hne, hget], hgeq, ?_⟩
      intro k2 v2 hget2 hgeq2
      by_cases hk2 : k2 = k1
      · rw [hk2, h1] at hgeq2; exact absurd hgeq2 (by simp)
      · simp only [getKV, if_neg hk2] at hget2
        exact hmin k2 v2 hget2 hgeq2
    · have hk : k = k1 ∧ v = v1 := by simpa using h.symm
      obtain ⟨hk, hv⟩ := hk
      subst hk; subst hv
      refine ⟨by simp [getKV], by simpa using h1, ?_⟩
      intro k2 v2 hget2 hgeq2
      by_cases hk2 : k2 = k
      · rw [hk2, lexLt_irrefl]
      · simp only [getKV, if_neg hk2] at hget2
        have := lexLt_of_getKV_allKeysGt rest k k2 v2 hs.1 hget2
        exact lexLt_asymm k k2 this

theorem seekKV_none_spec (t : List (Bytes × Bytes)) :
    ∀ q : Bytes, seekKV t q = none →
      ∀ k2 v2, getKV t k2 = some v2 → lexLt k2 q = true := by
  induction t with
  | nil => intro q _ k2 v2 h2; exact absurd h2 (by simp [getKV])
  | cons p rest ih =>
    intro q h k2 v2 h2
    obtain ⟨k1, v1⟩ := p
    simp only [seekKV] at h
    split_ifs at h with h1
    · simp only [getKV] at h2
      by_cases hk : k2 = k1
      · rw [hk]; exact h1
      · simp only [if_neg hk] at h2
        exact ih q h k2 v2 h2

/-! ### The cause chain of a boxed error is well founded -/

theorem BoxedError.cause_ne_self (e : BoxedError) : e.cause ≠ some e := by
  intro h
  cases e with
  | mk d s c =>
    have h2 : c = some (BoxedError.mk d s c) := h
    have h3 : BoxedError.depth (BoxedError.mk d s c) =
        BoxedError.depth (BoxedError.mk d s c) + 1 := by
      conv_lhs => rw [h2]
      simp [BoxedError.depth]
    omega

/-! ### The claims -/

/-- Claim C1: for every engine, key k and value v, if put(k, v) returns
success then every subsequent get(k) returns Some(v) until the next
modification of k (a later put of k or delete of k) — here: after any
trace of operations none of which modifies k. -/
theorem put_then_get_stable (e : BTreeEngine) (k v : Bytes) (ops : List Op)
    (_hput : (e.put k v).1 = .ok ())
    (hops : ∀ op ∈ ops, modifiesKey k op = false) :
    (runOps (e.put k v).2 ops).get k = .ok (some v) := by
  have h1 : getKV ((e.put k v).2).tree k = some v := by
    show getKV (insertKV e.tree k v) k = some v
    exact getKV_insert_self e.tree k v
  have h2 := runOps_preserves_getKV ops (e.put k v).2 k hops
  show Except.ok (getKV (runOps (e.put k v).2 ops).tree k) = Except.ok (some v)
  rw [h2, h1]

/-- Concrete instance of C1: put [1] ↦ [7] on a fresh engine, followed by a
get, a put of another key, a delete of another key and a seek, still reads
back [7]. -/
theorem put_then_get_stable_witness :
    ((BTreeEngine.new.put [1] [7]).1 = Except.ok () ∧
      ∀ op ∈ ([Op.opGet [1], Op.opPut [2] [5], Op.opDelete [3],
          Op.opSeek []] : List Op), modifiesKey [1] op = false) ∧
    (runOps ((BTreeEngine.new.put [1] [7]).2)
        [Op.opGet [1], Op.opPut [2] [5], Op.opDelete [3], Op.opSeek []]).get [1] =
      Except.ok (some [7]) :=
  ⟨⟨rfl, by decide⟩,
    put_then_get_stable BTreeEngine.new [1] [7]
      [Op.opGet [1], Op.opPut [2] [5], Op.opDelete [3], Op.opSeek []]
      rfl (by decide)⟩

/-- Claim C2: if write(batch) returns success, the resulting state for each
key equals the effect of that key's last modification in the batch, applied
in the caller-supplied order. -/
theorem write_last_write_wins (e : BTreeEngine) (b : List Modify) (k : Bytes)
    (hs : sortedTree e.tree = true) (_hw : (e.write b).1 = .ok ()) :
    ((e.write b).2).get k = .ok (specLastEffect b k (getKV e.tree k)) := by
  show Except.ok (getKV (applyBatch e.tree b) k) = _
  rw [getKV_applyBatch b e.tree k hs]

/-- Concrete instance of C2: after write([Put([1],[2]), Put([1],[3]),
Delete([9])]) on a fresh engine, get([1]) is the last effect for [1]. -/
theorem write_last_write_wins_witness :
    (sortedTree BTreeEngine.new.tree = true ∧
      (BTreeEngine.new.write [Modify.Put [1] [2], Modify.Put [1] [3],
        Modify.Delete [9]]).1 = Except.ok ()) ∧
    ((BTreeEngine.new.write [Modify.Put [1] [2], Modify.Put [1] [3],
        Modify.Delete [9]]).2).get [1] =
      Except.ok (specLastEffect
        [Modify.Put [1] [2], Modify.Put [1] [3], Modify.Delete [9]] [1]
        (getKV BTreeEngine.new.tree [1])) :=
  ⟨⟨rfl, rfl⟩,
    write_last_write_wins BTreeEngine.new
      [Modify.Put [1] [2], Modify.Put [1] [3], Modify.Delete [9]] [1] rfl rfl⟩

/-- Claim C3: write(batch) is atomic: it returns success and then all
modifications are reflected in subsequent reads (each key shows its
last-modification effect); the memory backend never returns an error, so
the none-reflected-on-error half of the contract is vacuously satisfied. -/
theorem write_atomic (e : BTreeEngine) (b : List Modify)
    (hs : sortedTree e.tree = true) :
    (e.write b).1 = .ok () ∧
      ∀ k, ((e.write b).2).get k = .ok (specLastEffect b k (getKV e.tree k)) := by
  refine ⟨rfl, fun k => ?_⟩
  show Except.ok (getKV (applyBatch e.tree b) k) = _
  rw [getKV_applyBatch b e.tree k hs]

/-- Concrete instance of C3 at a fresh engine and a one-put batch. -/
theorem write_atomic_witness :
    sortedTree BTreeEngine.new.tree = true ∧
    ((BTreeEngine.new.write [Modify.Put [4] [5]]).1 = Except.ok () ∧
      ∀ k, ((BTreeEngine.new.write [Modify.Put [4] [5]]).2).get k =
        Except.ok (specLastEffect [Modify.Put [4] [5]] k
          (getKV BTreeEngine.new.tree k))) :=
  ⟨rfl, write_atomic BTreeEngine.new [Modify.Put [4] [5]] rfl⟩

/-- Claim C4: seek(q) returns the live entry (k, v) with the smallest key
k ≥ q under lexicographic unsigned-byte order, or absent when no live key
is ≥ q. -/
theorem seek_returns_least_geq (e : BTreeEngine) (q : Bytes)
    (hs : sortedTree e.tree = true) :
    (∀ k v, e.seek q = .ok (some (k, v)) →
        getKV e.tree k = some v ∧ lexLt k q = false ∧
          ∀ k2 v2, getKV e.tree k2 = some v2 → lexLt k2 q = false →
            lexLt k2 k = false) ∧
    (e.seek q = .ok none →
      ∀ k2 v2, getKV e.tree k2 = some v2 → lexLt k2 q = true) := by
  constructor
  · intro k v h
    have h2 : seekKV e.tree q = some (k, v) := by
      simpa [BTreeEngine.seek] using h
    exact seekKV_some_spec e.tree q k v hs h2
  · intro h
    have h2 : seekKV e.tree q = none := by
      simpa [BTreeEngine.seek] using h
    exact seekKV_none_spec e.tree q h2

/-- Concrete instance of C4: seeking [2] in the sorted two-entry tree
holding keys [1] and [3]. -/
theorem seek_returns_least_geq_witness :
    sortedTree (BTreeEngine.mk [([1], [10]), ([3], [30])]).tree = true ∧
    ((∀ k v,
        (BTreeEngine.mk [([1], [10]), ([3], [30])]).seek [2] =
          Except.ok (some (k, v)) →
        getKV (BTreeEngine.mk [([1], [10]), ([3], [30])]).tree k = some v ∧
          lexLt k [2] = false ∧
          ∀ k2 v2,
            getKV (BTreeEngine.mk [([1], [10]), ([3], [30])]).tree k2 = some v2 →
            lexLt k2 [2] = false → lexLt k2 k = false) ∧
      ((BTreeEngine.mk [([1], [10]), ([3], [30])]).seek [2] = Except.ok none →
        ∀ k2 v2,
          getKV (BTreeEngine.mk [([1], [10]), ([3], [30])]).tree k2 = some v2 →
          lexLt k2 [2] = true)) :=
  ⟨by decide,
    seek_returns_least_geq (BTreeEngine.mk [([1], [10]), ([3], [30])]) [2]
      (by decide)⟩

/-- Claim C5: put(key, value) returns the same result and has the same
state effect as write([Put(key, value)]), and delete(key) the same as
write([Delete(key)]); moreover that effect is the single insertion,
respectively removal, of the key. -/
theorem put_delete_wrappers :
    (∀ (e : BTreeEngine) (k v : Bytes),
        e.put k v = e.write [Modify.Put k v] ∧
          (e.put k v).2.tree = insertKV e.tree k v) ∧
    ∀ (e : BTreeEngine) (k : Bytes),
        e.delete k = e.write [Modify.Delete k] ∧
          (e.delete k).2.tree = removeKV e.tree k :=
  ⟨fun _ _ _ => ⟨rfl, rfl⟩, fun _ _ => ⟨rfl, rfl⟩⟩

/-- Claim C6: write of an empty batch returns success and leaves the
observable state unchanged. -/
theorem write_empty_batch_noop (e : BTreeEngine) :
    e.write [] = (Except.ok (), e) := rfl

/-- Claim C7: delete(k) on an engine with no live entry for k returns
success, leaves the state unchanged, and get(k) still returns absent. -/
theorem delete_absent_benign (e : BTreeEngine) (k : Bytes)
    (h : getKV e.tree k = none) :
    (e.delete k).1 = .ok () ∧ (e.delete k).2 = e ∧
      ((e.delete k).2).get k = .ok none := by
  obtain ⟨t⟩ := e
  have ht : removeKV t k = t := removeKV_absent t k h
  refine ⟨rfl, ?_, ?_⟩
  · show BTreeEngine.mk (removeKV t k) = BTreeEngine.mk t
    rw [ht]
  · show Except.ok (getKV (removeKV t k) k) = Except.ok none
    rw [ht, h]

/-- Concrete instance of C7: deleting the absent key [5] from an engine
holding only key [1]. -/
theorem delete_absent_benign_witness :
    getKV (BTreeEngine.mk [([1], [2])]).tree [5] = none ∧
    (((BTreeEngine.mk [([1], [2])]).delete [5]).1 = Except.ok () ∧
      ((BTreeEngine.mk [([1], [2])]).delete [5]).2 = BTreeEngine.mk [([1], [2])] ∧
      (((BTreeEngine.mk [([1], [2])]).delete [5]).2).get [5] = Except.ok none) :=
  ⟨by decide, delete_absent_benign (BTreeEngine.mk [([1], [2])]) [5] (by decide)⟩

/-- Claim C8: new_engine(Descriptor::Memory) always returns Ok with the
memory backend, whatever the RocksDB constructor would do; the error branch
is unreachable for the Memory descriptor. -/
theorem new_engine_memory_always_ok (rocksNew : String → EResult Nat) :
    new_engine rocksNew Descriptor.Memory =
      Except.ok (EngineBox.mem BTreeEngine.new) := rfl

/-- Claim C9: get(key) never mutates the engine: the handle after the call
is the one before it, so every later get or seek on any key observes the
identical state. -/
theorem get_never_mutates (e : BTreeEngine) (k : Bytes) :
    (step e (Op.opGet k)).2 = e ∧
      (∀ k2, ((step e (Op.opGet k)).2).get k2 = e.get k2) ∧
      ∀ k2, ((step e (Op.opGet k)).2).seek k2 = e.seek k2 :=
  ⟨rfl, fun _ => rfl, fun _ => rfl⟩

/-- Claim C10: Error::Other(e) reports Display and description equal to
those of e, while its cause() returns e's own cause, never e itself: one
link of the cause chain is collapsed. -/
theorem error_other_delegates_cause (e : BoxedError) :
    EngineError.description (.Other e) = e.description ∧
    EngineError.displayOut (.Other e) = e.displayOut ∧
    EngineError.cause (.Other e) = e.cause ∧
    EngineError.cause (.Other e) ≠ some e :=
  ⟨rfl, rfl, rfl, BoxedError.cause_ne_self e⟩

end TikvEngine
